import Mathlib

/-!
Shallow embedding of `vulkano/autogen/mod.rs`: the build-time extraction
pipeline that turns the Vulkan XML registry into the intermediate models
consumed by the code emitters.

Modelling conventions:
* `vk_parse` document-tree types are modelled as inductives/structures with
  exactly the fields the code reads.
* `HashMap`/`IndexMap` built by `collect` from an iterator of pairs are both
  modelled as association lists built by repeated insert (`assocCollect`):
  an existing key keeps its position and receives the new value, a new key is
  appended.  For `IndexMap` the resulting order is the observable iteration
  order; for `HashMap` the list order is irrelevant (lookups only), except for
  the final provenance map, whose unordered iteration is modelled by
  `IsTypesIterationOrder` below.
* Rust `panic!`/`unwrap` failure is modelled by `Option` (`none` = fatal abort).
* Machine integers: the `u16` header version is a `Nat` with an explicit
  `< 65536` bound check in `parseU16`.
-/

namespace Autogen

inductive TypeCodeMarkup where
  | name (s : String)
  | other
  deriving DecidableEq, Repr

structure TypeCode where
  code : String
  markup : List TypeCodeMarkup
  deriving DecidableEq, Repr

inductive TypeSpec where
  | code (c : TypeCode)
  | other
  deriving DecidableEq, Repr

/-- A `<type>` element: `name` and `alias` attributes plus its spec payload. -/
structure VkType where
  name : Option String
  «alias» : Option String
  spec : TypeSpec
  deriving DecidableEq, Repr

inductive TypesChild where
  | type (ty : VkType)
  | other
  deriving DecidableEq, Repr

inductive InterfaceItem where
  | type (name : String)
  | other
  deriving DecidableEq, Repr

inductive ExtensionChild where
  | require (items : List InterfaceItem)
  | other
  deriving DecidableEq, Repr

structure Extension where
  name : String
  supported : Option String
  obsoletedby : Option String
  children : List ExtensionChild
  deriving DecidableEq, Repr

structure Feature where
  name : String
  children : List ExtensionChild
  deriving DecidableEq, Repr

inductive RegistryChild where
  | types (children : List TypesChild)
  | feature (f : Feature)
  | extensions (children : List Extension)
  | other
  deriving DecidableEq, Repr

abbrev Registry := List RegistryChild

/-- Insert one pair as `HashMap`/`IndexMap` insertion does when collecting from
an iterator: an existing key keeps its position and gets the new value, a new
key is appended at the end. -/
def assocInsert (m : List (String × α)) (k : String) (v : α) : List (String × α) :=
  if m.any (fun p => p.1 == k) then m.map (fun p => if p.1 == k then (k, v) else p)
  else m ++ [(k, v)]

/-- `collect` of an iterator of pairs into an `IndexMap` (order observable) or
`HashMap` (order irrelevant): repeated `assocInsert`. -/
def assocCollect (l : List (String × α)) : List (String × α) :=
  l.foldl (fun m p => assocInsert m p.1 p.2) []

/-- All `TypesChild` elements of all `Types` registry children, in document
order (the flattening every pass in `mod.rs` performs). -/
def typesChildren (r : Registry) : List TypesChild :=
  (r.filterMap fun c => match c with | .types ts => some ts | _ => none).flatten

/-- `get_aliases` inner pass: the `(name, alias)` pairs in document order.
`ty.name.as_ref().unwrap()` panics when an alias-carrying type has no name;
`none` models that abort. -/
def aliasPairs : List TypesChild → Option (List (String × String))
  | [] => some []
  | .type ty :: rest =>
      match ty.«alias» with
      | some a => do
          let n ← ty.name
          let tl ← aliasPairs rest
          pure ((n, a) :: tl)
      | none => aliasPairs rest
  | .other :: rest => aliasPairs rest

/-- `get_aliases`: the alias map, a `HashMap` collected from the alias pairs. -/
def get_aliases (r : Registry) : Option (List (String × String)) :=
  (aliasPairs (typesChildren r)).map assocCollect

/-- `aliases.get(item_name).unwrap_or(&item_name)`: one-hop alias resolution. -/
def resolve (aliases : List (String × String)) (n : String) : String :=
  (aliases.lookup n).getD n

/-- The retention filter of `get_extensions`:
`ext.supported == Some("vulkan") && ext.obsoletedby.is_none()`. -/
def extRetained (e : Extension) : Bool :=
  e.supported == some "vulkan" && e.obsoletedby.isNone

/-- All extension declarations of all `Extensions` registry children, in
document order (the flattening of `get_extensions`). -/
def extensionDecls (r : Registry) : List Extension :=
  (r.filterMap fun c => match c with | .extensions es => some es | _ => none).flatten

/-- The filtered iterator `iter` of `get_extensions`: all extension
declarations, in document order, that pass the retention filter. -/
def retainedExtensions (r : Registry) : List Extension :=
  (extensionDecls r).filter extRetained

/-- The vendor tier of the sort key in `get_extensions`:
0 for `VK_KHR_`, 1 for `VK_EXT_`, 2 otherwise. -/
def tier (name : String) : Nat :=
  if "VK_KHR_".data.isPrefixOf name.data then 0
  else if "VK_EXT_".data.isPrefixOf name.data then 1
  else 2

/-- Lexicographic order on the character data; for well-formed UTF-8 this is
exactly Rust's byte-wise `Ord` on `String`. -/
def strLt (a b : String) : Prop := a.data < b.data

instance : DecidableRel strLt := fun a b => by unfold strLt; infer_instance

/-- The (non-strict) order induced by the Rust sort key `(tier, name)`. -/
def extLE (a b : String) : Prop :=
  tier a < tier b ∨ (tier a = tier b ∧ (strLt a b ∨ a = b))

/-- The strict order induced by the Rust sort key `(tier, name)`. -/
def extLT (a b : String) : Prop :=
  tier a < tier b ∨ (tier a = tier b ∧ strLt a b)

instance : DecidableRel extLE := fun a b => by unfold extLE; infer_instance

instance : DecidableRel extLT := fun a b => by unfold extLT; infer_instance

/-- The `HashMap` of retained extensions keyed by name: indexing it returns the
last-inserted declaration for a name (insertion overwrites). -/
def hashGetLast (l : List Extension) (name : String) : Option Extension :=
  l.reverse.find? (fun e => e.name == name)

/-- `get_extensions`: filter, sort the names by the `(tier, name)` key, and
collect `(name, extensions[name])` into an `IndexMap`.
`sort_unstable_by_key` is modelled by `insertionSort` under `extLE`: both
produce a sorted permutation, and a sorted permutation of a list of strings is
unique as a list (equal keys here force equal elements). -/
def get_extensions (r : Registry) : List (String × Extension) :=
  let iter := retainedExtensions r
  let sorted := List.insertionSort extLE (iter.map (fun e => e.name))
  assocCollect (sorted.filterMap fun n => (hashGetLast iter n).map (fun e => (n, e)))

/-- `get_features`: all feature declarations keyed by name, document order. -/
def get_features (r : Registry) : List (String × Feature) :=
  assocCollect (r.filterMap fun c => match c with | .feature f => some (f.name, f) | _ => none)

/-- The initial pairs of `get_types`: every named non-alias type declaration,
paired with an empty provider list, in document order. -/
def canonicalTypePairs (r : Registry) : List (String × VkType × List String) :=
  (typesChildren r).filterMap fun tc => match tc with
    | .type ty => if ty.«alias».isNone then ty.name.map (fun n => (n, ty, [])) else none
    | .other => none

/-- The type names referenced by the `Require` blocks of one capability. -/
def requiredNames (children : List ExtensionChild) : List String :=
  ((children.filterMap fun c => match c with | .require items => some items | _ => none).flatten).filterMap
    fun i => match i with | .type n => some n | _ => none

/-- One step of the provider pass of `get_types`: resolve the required name and,
if it is a key of the map, append the capability name to that entry's provider
list unless already present. -/
def addProvider (aliases : List (String × String)) (pname : String)
    (m : List (String × VkType × List String)) (itemName : String) :
    List (String × VkType × List String) :=
  let t := resolve aliases itemName
  m.map fun e =>
    if e.1 == t then (e.1, e.2.1, if e.2.2.contains pname then e.2.2 else e.2.2 ++ [pname])
    else e

/-- Process one capability's `Require` blocks in `get_types`. -/
def processCap (aliases : List (String × String))
    (m : List (String × VkType × List String)) (cap : String × List ExtensionChild) :
    List (String × VkType × List String) :=
  (requiredNames cap.2).foldl (addProvider aliases cap.1) m

/-- The fixed pass order of `get_types`: all features (in their preserved
order) chained with all extensions (in their computed order), each as
`(name, children)`. -/
def capsList (features : List (String × Feature)) (extensions : List (String × Extension)) :
    List (String × List ExtensionChild) :=
  features.map (fun p => (p.1, p.2.children)) ++ extensions.map (fun p => (p.1, p.2.children))

/-- `get_types`: initialise from the canonical declarations, run the provider
pass over features then extensions, and drop entries with no providers. -/
def get_types (r : Registry) (aliases : List (String × String))
    (features : List (String × Feature)) (extensions : List (String × Extension)) :
    List (String × VkType × List String) :=
  ((capsList features extensions).foldl (processCap aliases)
      (assocCollect (canonicalTypePairs r))).filter fun e => !e.2.2.isEmpty

/-- Whether a `TypesChild` is the `VK_HEADER_VERSION` marker; returns its
code payload when it is. -/
def markerCode : TypesChild → Option TypeCode
  | .type ty =>
      match ty.spec with
      | .code c =>
          if c.markup.any (fun m => match m with | .name n => n == "VK_HEADER_VERSION" | _ => false)
          then some c else none
      | .other => none
  | .other => none

/-- `str::rsplit_once(sep)`: split at the last occurrence of `sep`, `none` when
`sep` does not occur. -/
def rsplitOnceChar (sep : Char) : List Char → Option (List Char × List Char)
  | [] => none
  | c :: cs =>
      match rsplitOnceChar sep cs with
      | some (l, r) => some (c :: l, r)
      | none => if c == sep then some ([], cs) else none

/-- Decimal value of a digit list. -/
def digitsVal (cs : List Char) : Nat :=
  cs.foldl (fun acc c => acc * 10 + (c.toNat - 48)) 0

/-- Rust `str::parse::<u16>()`: an optional leading `+`, then one or more ASCII
digits, value below `2 ^ 16`; anything else is an error (`none`). -/
def parseU16 (cs : List Char) : Option Nat :=
  let ds := match cs with | '+' :: rest => rest | _ => cs
  if !ds.isEmpty && ds.all (fun c => c.isDigit) then
    if digitsVal ds < 65536 then some (digitsVal ds) else none
  else none

/-- `code.code.rsplit_once(' ').unwrap().1.parse().unwrap()` on the marker
payload; `none` models either panic. -/
def headerExtract (code : String) : Option Nat :=
  (rsplitOnceChar ' ' code.data).bind fun pr => parseU16 pr.2

/-- `get_header_version`: find the first marker type in document order and
parse the trailing token of its payload; `none` models the fatal panic (no
marker, no space in the payload, or unparsable token). -/
def get_header_version (r : Registry) : Option Nat :=
  ((typesChildren r).findSome? markerCode).bind fun c => headerExtract c.code

/-- The version-stamped comment `write` prints before the emitter output. -/
def headerComment (v : Nat) : String :=
  "// This file is auto-generated by vulkano autogen from vk.xml header version " ++ toString v ++
  ".\n// It should not be edited manually. Changes should be made by editing autogen.\n\n"

/-- The orchestrator `write`.  `parsed` is the result of
`vk_parse::parse_file("vk.xml").unwrap()` (`none` = missing or fully
unparsable document); the four emitters are the out-of-scope modules
`extensions`, `features`, `fns`, `properties`, taken as parameters with the
argument shapes of the source.  The returned string is everything the sink
receives; `none` means the run aborted fatally and the sink received no bytes,
which is faithful to the source because its single `write!` is the last
statement, after every fallible stage. -/
def write (parsed : Option Registry)
    (emitExtensions : List (String × Extension) → String)
    (emitFeatures : List (String × VkType × List String) → List (String × Extension) → String)
    (emitFns : List (String × Extension) → String)
    (emitProperties : List (String × VkType × List String) → List (String × Extension) → String) :
    Option String := do
  let registry ← parsed
  let aliases ← get_aliases registry
  let extensions := get_extensions registry
  let features := get_features registry
  let types := get_types registry aliases features extensions
  let header_version ← get_header_version registry
  pure (headerComment header_version ++ emitExtensions extensions ++ emitFeatures types extensions
        ++ emitFns extensions ++ emitProperties types extensions)

/-- The whole type-provenance stage as run by `write`. -/
def extractTypes (r : Registry) : Option (List (String × VkType × List String)) :=
  (get_aliases r).map fun al => get_types r al (get_features r) (get_extensions r)

/-- `get_types` returns a `std::collections::HashMap`; the emitters receive it
and iterate it in an order that is not a function of its contents (the hash
seed is fresh per map).  An observable iteration order is therefore any
permutation of the entries. -/
def IsTypesIterationOrder (r : Registry) (l : List (String × VkType × List String)) : Prop :=
  ∃ m, extractTypes r = some m ∧ l.Perm m

/-- `a` occurs strictly before `b` in the list `l`. -/
def precedes (l : List String) (a b : String) : Prop :=
  ∃ i j : Nat, i < j ∧ l[i]? = some a ∧ l[j]? = some b

/-! ### Association-list lemmas -/


theorem any_keys_iff {m : List (String × α)} {k : String} :
    m.any (fun p => p.1 == k) = true ↔ k ∈ m.map Prod.fst := by
  rw [List.any_eq_true]
  constructor
  · rintro ⟨p, hp, hpk⟩
    exact List.mem_map.mpr ⟨p, hp, eq_of_beq hpk⟩
  · intro h
    rcases List.mem_map.mp h with ⟨p, hp, rfl⟩
    exact ⟨p, hp, beq_self_eq_true _⟩

theorem keys_assocInsert_of_any {m : List (String × α)} {k : String} {v : α}
    (h : m.any (fun p => p.1 == k) = true) :
    (assocInsert m k v).map Prod.fst = m.map Prod.fst := by
  unfold assocInsert
  rw [if_pos h, List.map_map]
  apply List.map_congr_left
  intro p _
  by_cases hp : p.1 = k
  · simp [Function.comp, hp]
  · simp [Function.comp, hp]

theorem keys_assocInsert_of_not_any {m : List (String × α)} {k : String} {v : α}
    (h : ¬ m.any (fun p => p.1 == k) = true) :
    (assocInsert m k v).map Prod.fst = m.map Prod.fst ++ [k] := by
  unfold assocInsert
  rw [if_neg h]
  simp

theorem mem_keys_assocInsert {m : List (String × α)} {k k' : String} {v : α} :
    k' ∈ (assocInsert m k v).map Prod.fst ↔ k' ∈ m.map Prod.fst ∨ k' = k := by
  by_cases h : m.any (fun p => p.1 == k) = true
  · rw [keys_assocInsert_of_any h]
    constructor
    · exact Or.inl
    · rintro (h' | rfl)
      · exact h'
      · exact any_keys_iff.mp h
  · rw [keys_assocInsert_of_not_any h]
    simp

theorem nodup_keys_assocInsert {m : List (String × α)} {k : String} {v : α}
    (h : (m.map Prod.fst).Nodup) : ((assocInsert m k v).map Prod.fst).Nodup := by
  by_cases hc : m.any (fun p => p.1 == k) = true
  · rw [keys_assocInsert_of_any hc]
    exact h
  · rw [keys_assocInsert_of_not_any hc]
    have hk : k ∉ m.map Prod.fst := fun hmem => hc (any_keys_iff.mpr hmem)
    exact List.Nodup.append h (List.nodup_singleton k) (List.disjoint_singleton.mpr hk)

theorem mem_assocInsert_sub {m : List (String × α)} {k : String} {v : α} {p : String × α}
    (h : p ∈ assocInsert m k v) : p ∈ m ∨ p = (k, v) := by
  unfold assocInsert at h
  by_cases hc : m.any (fun q => q.1 == k) = true
  · rw [if_pos hc] at h
    rcases List.mem_map.mp h with ⟨q, hq, rfl⟩
    by_cases hqk : q.1 = k
    · simp only [hqk, beq_self_eq_true, if_true]
      exact Or.inr trivial
    · rw [if_neg (by simpa using hqk)]
      exact Or.inl hq
  · rw [if_neg hc] at h
    rcases List.mem_append.mp h with h | h
    · exact Or.inl h
    · exact Or.inr (List.mem_singleton.mp h)

theorem mem_assocInsert_self {m : List (String × α)} {k : String} {v : α} :
    (k, v) ∈ assocInsert m k v := by
  unfold assocInsert
  by_cases hc : m.any (fun q => q.1 == k) = true
  · rw [if_pos hc]
    rcases List.any_eq_true.mp hc with ⟨p, hp, hpk⟩
    refine List.mem_map.mpr ⟨p, hp, ?_⟩
    rw [if_pos hpk]
  · rw [if_neg hc]
    exact List.mem_append.mpr (Or.inr (List.mem_singleton.mpr rfl))

theorem mem_assocInsert_of_ne {m : List (String × α)} {k : String} {v : α} {p : String × α}
    (hp : p ∈ m) (hne : p.1 ≠ k) : p ∈ assocInsert m k v := by
  unfold assocInsert
  by_cases hc : m.any (fun q => q.1 == k) = true
  · rw [if_pos hc]
    refine List.mem_map.mpr ⟨p, hp, ?_⟩
    rw [if_neg (by simpa using hne)]
  · rw [if_neg hc]
    exact List.mem_append.mpr (Or.inl hp)

theorem foldl_assocInsert_keys_nodup :
    ∀ (l : List (String × α)) (m : List (String × α)),
      (m.map Prod.fst).Nodup →
      ((l.foldl (fun m p => assocInsert m p.1 p.2) m).map Prod.fst).Nodup
  | [], _, h => h
  | p :: l, m, h =>
      foldl_assocInsert_keys_nodup l (assocInsert m p.1 p.2) (nodup_keys_assocInsert h)

theorem mem_keys_foldl_assocInsert :
    ∀ (l : List (String × α)) (m : List (String × α)) (k : String),
      (k ∈ (l.foldl (fun m p => assocInsert m p.1 p.2) m).map Prod.fst ↔
        k ∈ m.map Prod.fst ∨ k ∈ l.map Prod.fst)
  | [], m, k => by simp
  | p :: l, m, k => by
      rw [List.foldl_cons, mem_keys_foldl_assocInsert l (assocInsert m p.1 p.2) k,
        mem_keys_assocInsert]
      simp only [List.map_cons, List.mem_cons]
      tauto

theorem mem_foldl_assocInsert_sub :
    ∀ (l : List (String × α)) (m : List (String × α)) (p : String × α),
      p ∈ l.foldl (fun m p => assocInsert m p.1 p.2) m → p ∈ m ∨ p ∈ l
  | [], _, _, h => Or.inl h
  | q :: l, m, p, h => by
      rcases mem_foldl_assocInsert_sub l (assocInsert m q.1 q.2) p h with h' | h'
      · rcases mem_assocInsert_sub h' with h'' | h''
        · exact Or.inl h''
        · exact Or.inr (List.mem_cons.mpr (Or.inl (by simpa using h'')))
      · exact Or.inr (List.mem_cons.mpr (Or.inr h'))

theorem mem_foldl_assocInsert_of_consistent {k : String} {v : α} :
    ∀ (l : List (String × α)) (m : List (String × α)),
      (∀ p ∈ l, p.1 = k → p.2 = v) →
      ((k, v) ∈ m ∨ k ∈ l.map Prod.fst) →
      (k, v) ∈ l.foldl (fun m p => assocInsert m p.1 p.2) m
  | [], m, _, h => by simpa using h
  | q :: l, m, hcons, h => by
      rw [List.foldl_cons]
      by_cases hqk : q.1 = k
      · have hqv : q.2 = v := hcons q (List.mem_cons_self _ _) hqk
        refine mem_foldl_assocInsert_of_consistent l _
          (fun p hp hpk => hcons p (List.mem_cons_of_mem _ hp) hpk) (Or.inl ?_)
        have heq : assocInsert m q.1 q.2 = assocInsert m k v := by rw [hqk, hqv]
        rw [heq]
        exact mem_assocInsert_self
      · refine mem_foldl_assocInsert_of_consistent l _
          (fun p hp hpk => hcons p (List.mem_cons_of_mem _ hp) hpk) ?_
        rcases h with h | h
        · exact Or.inl (mem_assocInsert_of_ne h (fun e => hqk e.symm))
        · have h2 : k = q.1 ∨ k ∈ l.map Prod.fst := by simpa using h
          rcases h2 with h' | h'
          · exact absurd h'.symm hqk
          · exact Or.inr h'

theorem assocCollect_keys_nodup (l : List (String × α)) :
    ((assocCollect l).map Prod.fst).Nodup :=
  foldl_assocInsert_keys_nodup l [] List.nodup_nil

theorem mem_keys_assocCollect {l : List (String × α)} {k : String} :
    k ∈ (assocCollect l).map Prod.fst ↔ k ∈ l.map Prod.fst := by
  rw [assocCollect, mem_keys_foldl_assocInsert]
  simp

theorem mem_assocCollect_sub {l : List (String × α)} {p : String × α}
    (h : p ∈ assocCollect l) : p ∈ l := by
  rcases mem_foldl_assocInsert_sub l [] p h with h' | h'
  · cases h'
  · exact h'

theorem mem_assocCollect_of_consistent {l : List (String × α)} {k : String} {v : α}
    (hcons : ∀ p ∈ l, p.1 = k → p.2 = v) (hk : k ∈ l.map Prod.fst) :
    (k, v) ∈ assocCollect l :=
  mem_foldl_assocInsert_of_consistent l [] hcons (Or.inr hk)

theorem mem_of_lookup_eq_some {m : List (String × α)} {k : String} {v : α}
    (h : m.lookup k = some v) : (k, v) ∈ m := by
  induction m with
  | nil => cases h
  | cons p m ih =>
      obtain ⟨pk, pv⟩ := p
      rw [List.lookup_cons] at h
      by_cases hk : k = pk
      · subst hk
        simp only [beq_self_eq_true] at h
        cases h
        exact List.mem_cons_self _ _
      · rw [show (k == pk) = false from beq_eq_false_iff_ne.mpr hk] at h
        exact List.mem_cons_of_mem _ (ih h)

theorem lookup_eq_some_of_mem_nodup {m : List (String × α)} {k : String} {v : α}
    (hnd : (m.map Prod.fst).Nodup) (hm : (k, v) ∈ m) : m.lookup k = some v := by
  induction m with
  | nil => cases hm
  | cons p m ih =>
      obtain ⟨pk, pv⟩ := p
      rw [List.map_cons, List.nodup_cons] at hnd
      rw [List.lookup_cons]
      rcases List.mem_cons.mp hm with heq | hm'
      · cases heq
        simp
      · have hk : k ≠ pk := by
          rintro rfl
          exact hnd.1 (List.mem_map.mpr ⟨(k, v), hm', rfl⟩)
        rw [show (k == pk) = false from beq_eq_false_iff_ne.mpr hk]
        exact ih hnd.2 hm'

theorem lookup_isSome_of_mem_keys {m : List (String × α)} {k : String}
    (h : k ∈ m.map Prod.fst) : ∃ v, m.lookup k = some v := by
  induction m with
  | nil => simp at h
  | cons p m ih =>
      obtain ⟨pk, pv⟩ := p
      rw [List.lookup_cons]
      by_cases hk : k = pk
      · subst hk
        simp
      · rw [show (k == pk) = false from beq_eq_false_iff_ne.mpr hk]
        apply ih
        have h2 : k = pk ∨ k ∈ m.map Prod.fst := by simpa using h
        rcases h2 with h' | h'
        · exact absurd h' hk
        · exact h'

theorem mem_keys_of_lookup_eq_some {m : List (String × α)} {k : String} {v : α}
    (h : m.lookup k = some v) : k ∈ m.map Prod.fst :=
  List.mem_map.mpr ⟨(k, v), mem_of_lookup_eq_some h, rfl⟩

/-! ### The `(tier, name)` order -/

theorem strLt_iff {a b : String} : strLt a b ↔ a < b :=
  String.lt_iff_toList_lt.symm

theorem extLE_total (a b : String) : extLE a b ∨ extLE b a := by
  unfold extLE
  rcases Nat.lt_trichotomy (tier a) (tier b) with h | h | h
  · exact Or.inl (Or.inl h)
  · rcases le_total a b with hs | hs
    · rcases lt_or_eq_of_le hs with hs | hs
      · exact Or.inl (Or.inr ⟨h, Or.inl (strLt_iff.mpr hs)⟩)
      · exact Or.inl (Or.inr ⟨h, Or.inr hs⟩)
    · rcases lt_or_eq_of_le hs with hs | hs
      · exact Or.inr (Or.inr ⟨h.symm, Or.inl (strLt_iff.mpr hs)⟩)
      · exact Or.inr (Or.inr ⟨h.symm, Or.inr hs⟩)
  · exact Or.inr (Or.inl h)

theorem extLE_trans {a b c : String} (h1 : extLE a b) (h2 : extLE b c) : extLE a c := by
  unfold extLE at *
  rcases h1 with h1 | ⟨h1t, h1s⟩
  · rcases h2 with h2 | ⟨h2t, _⟩
    · exact Or.inl (h1.trans h2)
    · exact Or.inl (h2t ▸ h1)
  · rcases h2 with h2 | ⟨h2t, h2s⟩
    · exact Or.inl (h1t ▸ h2)
    · refine Or.inr ⟨h1t.trans h2t, ?_⟩
      rcases h1s with h1s | rfl
      · rcases h2s with h2s | rfl
        · exact Or.inl (strLt_iff.mpr (lt_trans (strLt_iff.mp h1s) (strLt_iff.mp h2s)))
        · exact Or.inl h1s
      · exact h2s

instance : IsTotal String extLE := ⟨extLE_total⟩

instance : IsTrans String extLE := ⟨fun _ _ _ => extLE_trans⟩

theorem extLT_irrefl (a : String) : ¬ extLT a a := by
  unfold extLT
  rintro (h | ⟨_, h⟩)
  · exact lt_irrefl _ h
  · exact lt_irrefl _ (strLt_iff.mp h)

theorem extLT_trans {a b c : String} (h1 : extLT a b) (h2 : extLT b c) : extLT a c := by
  unfold extLT at *
  rcases h1 with h1 | ⟨h1t, h1s⟩
  · rcases h2 with h2 | ⟨h2t, _⟩
    · exact Or.inl (h1.trans h2)
    · exact Or.inl (h2t ▸ h1)
  · rcases h2 with h2 | ⟨h2t, h2s⟩
    · exact Or.inl (h1t ▸ h2)
    · exact Or.inr ⟨h1t.trans h2t,
        strLt_iff.mpr (lt_trans (strLt_iff.mp h1s) (strLt_iff.mp h2s))⟩

theorem extLT_asymm {a b : String} (h : extLT a b) : ¬ extLT b a :=
  fun h' => extLT_irrefl a (extLT_trans h h')

theorem extLT_ne {a b : String} (h : extLT a b) : a ≠ b := by
  rintro rfl
  exact extLT_irrefl a h

theorem extLT_of_extLE_of_ne {a b : String} (h : extLE a b) (hne : a ≠ b) : extLT a b := by
  rcases h with h | ⟨ht, hs | heq⟩
  · exact Or.inl h
  · exact Or.inr ⟨ht, hs⟩
  · exact absurd heq hne

theorem extLT_total_of_ne {a b : String} (hne : a ≠ b) : extLT a b ∨ extLT b a := by
  rcases extLE_total a b with h | h
  · exact Or.inl (extLT_of_extLE_of_ne h hne)
  · exact Or.inr (extLT_of_extLE_of_ne h hne.symm)

/-! ### Keys of `assocCollect` as a sublist -/

/-- The keys that survive collection: the first occurrence of each key not yet
seen, in order.  Proof-only helper describing `assocCollect`'s key order. -/
def firstKeys (seen : List String) : List String → List String
  | [] => []
  | k :: ks => if k ∈ seen then firstKeys seen ks else k :: firstKeys (k :: seen) ks

theorem firstKeys_cons_of_mem {seen : List String} {k : String} {ks : List String}
    (h : k ∈ seen) : firstKeys seen (k :: ks) = firstKeys seen ks := by
  rw [firstKeys, if_pos h]

theorem firstKeys_cons_of_not_mem {seen : List String} {k : String} {ks : List String}
    (h : k ∉ seen) : firstKeys seen (k :: ks) = k :: firstKeys (k :: seen) ks := by
  rw [firstKeys, if_neg h]

theorem firstKeys_congr :
    ∀ (ks : List String) (s₁ s₂ : List String), (∀ x, x ∈ s₁ ↔ x ∈ s₂) →
      firstKeys s₁ ks = firstKeys s₂ ks
  | [], _, _, _ => rfl
  | k :: ks, s₁, s₂, h => by
      unfold firstKeys
      by_cases hk : k ∈ s₁
      · rw [if_pos hk, if_pos ((h k).mp hk)]
        exact firstKeys_congr ks s₁ s₂ h
      · rw [if_neg hk, if_neg (fun hc => hk ((h k).mpr hc))]
        refine congrArg _ (firstKeys_congr ks (k :: s₁) (k :: s₂) ?_)
        intro x
        simp only [List.mem_cons]
        exact or_congr Iff.rfl (h x)

theorem firstKeys_sublist (seen : List String) :
    ∀ ks : List String, (firstKeys seen ks).Sublist ks := by
  intro ks
  induction ks generalizing seen with
  | nil => exact List.Sublist.refl _
  | cons k ks ih =>
      unfold firstKeys
      by_cases hk : k ∈ seen
      · rw [if_pos hk]
        exact List.Sublist.cons k (ih seen)
      · rw [if_neg hk]
        exact List.Sublist.cons₂ k (ih (k :: seen))

theorem keys_foldl_assocInsert {α : Type u} :
    ∀ (l : List (String × α)) (m : List (String × α)),
      (l.foldl (fun m p => assocInsert m p.1 p.2) m).map Prod.fst =
        m.map Prod.fst ++ firstKeys (m.map Prod.fst) (l.map Prod.fst)
  | [], m => by simp [firstKeys]
  | p :: l, m => by
      rw [List.foldl_cons, keys_foldl_assocInsert l (assocInsert m p.1 p.2)]
      by_cases hc : m.any (fun q => q.1 == p.1) = true
      · rw [keys_assocInsert_of_any hc]
        have hmem : p.1 ∈ m.map Prod.fst := any_keys_iff.mp hc
        simp only [List.map_cons]
        rw [firstKeys_cons_of_mem hmem]
      · rw [keys_assocInsert_of_not_any hc]
        have hmem : p.1 ∉ m.map Prod.fst := fun h => hc (any_keys_iff.mpr h)
        simp only [List.map_cons]
        rw [firstKeys_cons_of_not_mem hmem]
        rw [firstKeys_congr (l.map Prod.fst) (m.map Prod.fst ++ [p.1]) (p.1 :: m.map Prod.fst)
          (by intro x; simp only [List.mem_append, List.mem_singleton, List.mem_cons]; tauto)]
        simp

theorem keys_assocCollect_eq (l : List (String × α)) :
    (assocCollect l).map Prod.fst = firstKeys [] (l.map Prod.fst) := by
  have h := keys_foldl_assocInsert l []
  simpa [assocCollect] using h

theorem keys_assocCollect_sublist (l : List (String × α)) :
    ((assocCollect l).map Prod.fst).Sublist (l.map Prod.fst) := by
  rw [keys_assocCollect_eq]
  exact firstKeys_sublist [] (l.map Prod.fst)

/-! ### Structure of `get_extensions` -/

/-- The sorted name list built inside `get_extensions`. -/
def extSortedNames (r : Registry) : List String :=
  List.insertionSort extLE ((retainedExtensions r).map (fun e => e.name))

/-- The pair iterator collected into the `IndexMap` inside `get_extensions`. -/
def extPairs (r : Registry) : List (String × Extension) :=
  (extSortedNames r).filterMap fun n => (hashGetLast (retainedExtensions r) n).map (fun e => (n, e))

theorem get_extensions_eq (r : Registry) : get_extensions r = assocCollect (extPairs r) := rfl

theorem hashGetLast_mem {l : List Extension} {n : String} {e : Extension}
    (h : hashGetLast l n = some e) : e ∈ l ∧ e.name = n := by
  unfold hashGetLast at h
  have h2 := List.find?_some h
  exact ⟨List.mem_reverse.mp (List.mem_of_find?_eq_some h), eq_of_beq (by simpa using h2)⟩

theorem hashGetLast_isSome {l : List Extension} {e : Extension} (he : e ∈ l) :
    (hashGetLast l e.name).isSome := by
  unfold hashGetLast
  rw [List.find?_isSome]
  exact ⟨e, List.mem_reverse.mpr he, beq_self_eq_true _⟩

theorem find?_name_eq_of_nodup :
    ∀ {l : List Extension} {e : Extension}, ((l.map (fun x => x.name)).Nodup) → e ∈ l →
      l.find? (fun x => x.name == e.name) = some e := by
  intro l
  induction l with
  | nil => intro e _ h; cases h
  | cons q l ih =>
      intro e hnd he
      rw [List.map_cons, List.nodup_cons] at hnd
      rcases List.mem_cons.mp he with rfl | he'
      · simp [List.find?_cons]
      · have hne : q.name ≠ e.name := by
          intro hq
          exact hnd.1 (hq ▸ List.mem_map.mpr ⟨e, he', rfl⟩)
        have hpq : (q.name == e.name) = false := beq_eq_false_iff_ne.mpr hne
        simp only [List.find?_cons, hpq]
        exact ih hnd.2 he'

theorem hashGetLast_of_nodup {l : List Extension} {e : Extension}
    (hnd : (l.map (fun x => x.name)).Nodup) (he : e ∈ l) :
    hashGetLast l e.name = some e := by
  unfold hashGetLast
  refine find?_name_eq_of_nodup ?_ (List.mem_reverse.mpr he)
  rw [List.map_reverse]
  exact List.nodup_reverse.mpr hnd

theorem find?_eq_head?_filter {α : Type u} {p : α → Bool} :
    ∀ l : List α, l.find? p = (l.filter p).head?
  | [] => rfl
  | a :: l => by
      by_cases ha : p a
      · rw [List.find?_cons_of_pos _ ha, List.filter_cons_of_pos ha, List.head?_cons]
      · rw [List.find?_cons_of_neg _ (by simpa using ha), List.filter_cons_of_neg (by simpa using ha)]
        exact find?_eq_head?_filter l

theorem hashGetLast_eq_filter_getLast? (l : List Extension) (n : String) :
    hashGetLast l n = (l.filter (fun e => e.name == n)).getLast? := by
  unfold hashGetLast
  rw [find?_eq_head?_filter, List.filter_reverse, List.head?_reverse]

theorem filterMap_hashGet_keys :
    ∀ (ns : List String) (it : List Extension),
      (∀ n ∈ ns, (hashGetLast it n).isSome) →
      ((ns.filterMap fun n => (hashGetLast it n).map (fun e => (n, e))).map Prod.fst) = ns
  | [], _, _ => rfl
  | n :: ns, it, h => by
      obtain ⟨e, he⟩ := Option.isSome_iff_exists.mp (h n (List.mem_cons_self _ _))
      rw [List.filterMap_cons, he]
      simp only [Option.map_some', List.map_cons]
      rw [filterMap_hashGet_keys ns it (fun m hm => h m (List.mem_cons_of_mem _ hm))]

theorem extSortedNames_mem {r : Registry} {n : String} :
    n ∈ extSortedNames r ↔ ∃ e ∈ retainedExtensions r, e.name = n := by
  rw [extSortedNames, (List.perm_insertionSort extLE _).mem_iff]
  constructor
  · intro h
    rcases List.mem_map.mp h with ⟨e, he, rfl⟩
    exact ⟨e, he, rfl⟩
  · rintro ⟨e, he, rfl⟩
    exact List.mem_map.mpr ⟨e, he, rfl⟩

theorem extPairs_keys (r : Registry) : (extPairs r).map Prod.fst = extSortedNames r := by
  apply filterMap_hashGet_keys
  intro n hn
  rcases extSortedNames_mem.mp hn with ⟨e, he, rfl⟩
  exact hashGetLast_isSome he

theorem get_extensions_keys_nodup (r : Registry) :
    ((get_extensions r).map Prod.fst).Nodup := by
  rw [get_extensions_eq]
  exact assocCollect_keys_nodup _

theorem get_extensions_keys_sublist (r : Registry) :
    ((get_extensions r).map Prod.fst).Sublist (extSortedNames r) := by
  rw [get_extensions_eq]
  have h := keys_assocCollect_sublist (extPairs r)
  rwa [extPairs_keys] at h

theorem extSortedNames_sorted (r : Registry) : (extSortedNames r).Pairwise extLE :=
  List.sorted_insertionSort extLE _

theorem get_extensions_keys_pairwise (r : Registry) :
    ((get_extensions r).map Prod.fst).Pairwise extLT := by
  have hle : ((get_extensions r).map Prod.fst).Pairwise extLE :=
    List.Pairwise.sublist (get_extensions_keys_sublist r) (extSortedNames_sorted r)
  have hnd : ((get_extensions r).map Prod.fst).Nodup := get_extensions_keys_nodup r
  exact (hle.and hnd).imp (fun h => extLT_of_extLE_of_ne h.1 h.2)

theorem mem_get_extensions_keys {r : Registry} {n : String} :
    n ∈ (get_extensions r).map Prod.fst ↔ ∃ e ∈ retainedExtensions r, e.name = n := by
  rw [get_extensions_eq, mem_keys_assocCollect, extPairs_keys]
  exact extSortedNames_mem

theorem mem_get_extensions_iff {r : Registry} {n : String} {e : Extension} :
    (n, e) ∈ get_extensions r ↔
      n ∈ extSortedNames r ∧ hashGetLast (retainedExtensions r) n = some e := by
  rw [get_extensions_eq]
  constructor
  · intro h
    have hp := mem_assocCollect_sub h
    rcases List.mem_filterMap.mp hp with ⟨a, ha, hfa⟩
    rcases Option.map_eq_some'.mp hfa with ⟨e', he', heq⟩
    obtain ⟨rfl, rfl⟩ : a = n ∧ e' = e := by
      constructor <;> [exact congrArg Prod.fst heq; exact congrArg Prod.snd heq]
    exact ⟨ha, he'⟩
  · rintro ⟨hn, he⟩
    apply mem_assocCollect_of_consistent
    · intro p hp hpk
      rcases List.mem_filterMap.mp hp with ⟨a, _, hfa⟩
      rcases Option.map_eq_some'.mp hfa with ⟨e', he', heq⟩
      have ha : a = p.1 := congrArg Prod.fst heq
      rw [ha, hpk, he] at he'
      cases he'
      exact congrArg Prod.snd heq.symm
    · rw [extPairs_keys]
      exact hn

/-! ### Structure of `get_types` -/

/-- Whether a capability's `Require` blocks reference the canonical name `t`
after alias resolution. -/
def capRequires (aliases : List (String × String)) (children : List ExtensionChild)
    (t : String) : Bool :=
  (requiredNames children).any (fun n => resolve aliases n == t)

/-- Append a provider name unless already present (the `contains`/`push` step). -/
def provAdd (p : String) (provs : List String) : List String :=
  if provs.contains p then provs else provs ++ [p]

/-- Providers accumulated left to right over a list of capability names,
skipping the ones already present. -/
def accProviders (provs : List String) (ps : List String) : List String :=
  ps.foldl (fun acc p => provAdd p acc) provs

theorem mem_provAdd {x p : String} {l : List String} :
    x ∈ provAdd p l ↔ x ∈ l ∨ x = p := by
  unfold provAdd
  by_cases h : l.contains p
  · rw [if_pos h]
    constructor
    · exact Or.inl
    · rintro (h' | rfl)
      · exact h'
      · exact List.elem_iff.mp h
  · rw [if_neg h]
    simp

theorem provAdd_idem (p : String) (l : List String) :
    provAdd p (provAdd p l) = provAdd p l := by
  have h : (provAdd p l).contains p = true :=
    List.elem_iff.mpr (mem_provAdd.mpr (Or.inr rfl))
  unfold provAdd
  rw [if_pos (by exact h)]

theorem provAdd_ne_nil (p : String) (l : List String) : provAdd p l ≠ [] := by
  unfold provAdd
  by_cases h : l.contains p
  · rw [if_pos h]
    intro hl
    rw [hl] at h
    cases h
  · rw [if_neg h]
    simp

theorem provAdd_nodup {p : String} {l : List String} (h : l.Nodup) :
    (provAdd p l).Nodup := by
  unfold provAdd
  by_cases hc : l.contains p
  · rwa [if_pos hc]
  · rw [if_neg hc]
    have hp : p ∉ l := fun hm => hc (List.elem_iff.mpr hm)
    exact List.Nodup.append h (List.nodup_singleton p) (List.disjoint_singleton.mpr hp)

theorem mem_accProviders {x : String} :
    ∀ (ps : List String) (provs : List String),
      (x ∈ accProviders provs ps ↔ x ∈ provs ∨ x ∈ ps)
  | [], provs => by simp [accProviders]
  | p :: ps, provs => by
      show x ∈ accProviders (provAdd p provs) ps ↔ _
      rw [mem_accProviders ps (provAdd p provs), mem_provAdd]
      simp only [List.mem_cons]
      tauto

theorem accProviders_nodup :
    ∀ (ps : List String) (provs : List String), provs.Nodup → (accProviders provs ps).Nodup
  | [], _, h => h
  | p :: ps, provs, h =>
      accProviders_nodup ps (provAdd p provs) (provAdd_nodup h)

theorem accProviders_ne_nil_of_provs :
    ∀ (ps : List String) (provs : List String), provs ≠ [] → accProviders provs ps ≠ []
  | [], _, h => h
  | p :: ps, provs, _ =>
      accProviders_ne_nil_of_provs ps (provAdd p provs) (provAdd_ne_nil p provs)

theorem accProviders_nil_eq_nil_iff (ps : List String) :
    accProviders [] ps = [] ↔ ps = [] := by
  cases ps with
  | nil => simp [accProviders]
  | cons p ps =>
      constructor
      · intro h
        exact absurd h
          (accProviders_ne_nil_of_provs ps (provAdd p []) (provAdd_ne_nil p []))
      · intro h
        cases h

theorem lookup_map_update {β : Type u} (g : String → β → β) :
    ∀ (m : List (String × β)) (t : String),
      (m.map (fun p => (p.1, g p.1 p.2))).lookup t = (m.lookup t).map (g t)
  | [], _ => rfl
  | (qk, qv) :: m, t => by
      rw [List.map_cons, List.lookup_cons, List.lookup_cons]
      by_cases ht : t = qk
      · subst ht
        simp
      · rw [show (t == qk) = false from beq_eq_false_iff_ne.mpr ht]
        exact lookup_map_update g m t

theorem addProvider_eq_map (al : List (String × String)) (p itemName : String)
    (m : List (String × VkType × List String)) :
    addProvider al p m itemName =
      m.map (fun e => (e.1,
        if e.1 == resolve al itemName then (e.2.1, provAdd p e.2.2) else e.2)) := by
  unfold addProvider
  apply List.map_congr_left
  intro e _
  by_cases h : (e.1 == resolve al itemName) = true
  · rw [if_pos h, if_pos h]
    rfl
  · rw [if_neg h, if_neg h]

theorem lookup_addProvider (al : List (String × String)) (p itemName t : String)
    (m : List (String × VkType × List String)) :
    (addProvider al p m itemName).lookup t =
      (m.lookup t).map fun v =>
        if resolve al itemName == t then (v.1, provAdd p v.2) else v := by
  rw [addProvider_eq_map,
    lookup_map_update (fun k v => if k == resolve al itemName then (v.1, provAdd p v.2) else v)]
  cases h : m.lookup t with
  | none => rfl
  | some v =>
      simp only [Option.map_some']
      by_cases hc : resolve al itemName = t
      · simp [hc]
      · rw [show (t == resolve al itemName) = false from beq_eq_false_iff_ne.mpr (Ne.symm hc),
          show (resolve al itemName == t) = false from beq_eq_false_iff_ne.mpr hc]

theorem lookup_foldl_addProvider (al : List (String × String)) (p t : String) :
    ∀ (ns : List String) (m : List (String × VkType × List String)),
      (ns.foldl (addProvider al p) m).lookup t =
        (m.lookup t).map fun v =>
          if ns.any (fun n => resolve al n == t) then (v.1, provAdd p v.2) else v
  | [], m => by
      cases h : m.lookup t <;> simp [h]
  | n :: ns, m => by
      rw [List.foldl_cons, lookup_foldl_addProvider al p t ns _, lookup_addProvider,
        Option.map_map]
      cases h : m.lookup t with
      | none => rfl
      | some v =>
          simp only [Option.map_some', Function.comp, List.any_cons]
          by_cases hn : (resolve al n == t) = true
          · by_cases hns : (ns.any (fun n => resolve al n == t)) = true
            · simp [hn, hns, provAdd_idem]
            · simp [hn, hns]
          · by_cases hns : (ns.any (fun n => resolve al n == t)) = true
            · simp [hn, hns]
            · simp [hn, hns]

theorem lookup_processCap (al : List (String × String))
    (cap : String × List ExtensionChild) (t : String)
    (m : List (String × VkType × List String)) :
    (processCap al m cap).lookup t =
      (m.lookup t).map fun v =>
        if capRequires al cap.2 t then (v.1, provAdd cap.1 v.2) else v :=
  lookup_foldl_addProvider al cap.1 t (requiredNames cap.2) m

theorem lookup_foldl_processCap (al : List (String × String)) (t : String) :
    ∀ (caps : List (String × List ExtensionChild))
      (m : List (String × VkType × List String)),
      (caps.foldl (processCap al) m).lookup t =
        (m.lookup t).map fun v =>
          (v.1, accProviders v.2
            ((caps.filter (fun c => capRequires al c.2 t)).map Prod.fst))
  | [], m => by
      cases h : m.lookup t <;> simp [h, accProviders]
  | c :: caps, m => by
      rw [List.foldl_cons, lookup_foldl_processCap al t caps _, lookup_processCap,
        Option.map_map]
      cases h : m.lookup t with
      | none => rfl
      | some v =>
          simp only [Option.map_some', Function.comp]
          by_cases hc : capRequires al c.2 t = true
          · rw [show List.filter (fun c => capRequires al c.2 t) (c :: caps)
                  = c :: List.filter (fun c => capRequires al c.2 t) caps from
                List.filter_cons_of_pos hc]
            simp only [if_pos hc, List.map_cons]
            rfl
          · rw [show List.filter (fun c => capRequires al c.2 t) (c :: caps)
                  = List.filter (fun c => capRequires al c.2 t) caps from
                List.filter_cons_of_neg (by simpa using hc)]
            simp only [if_neg hc]

theorem keys_addProvider (al : List (String × String)) (p itemName : String)
    (m : List (String × VkType × List String)) :
    (addProvider al p m itemName).map Prod.fst = m.map Prod.fst := by
  rw [addProvider_eq_map, List.map_map]
  apply List.map_congr_left
  intro e _
  rfl

theorem keys_foldl_addProvider (al : List (String × String)) (p : String) :
    ∀ (ns : List String) (m : List (String × VkType × List String)),
      (ns.foldl (addProvider al p) m).map Prod.fst = m.map Prod.fst
  | [], _ => rfl
  | n :: ns, m => by
      rw [List.foldl_cons, keys_foldl_addProvider al p ns _, keys_addProvider]

theorem keys_processCap (al : List (String × String))
    (m : List (String × VkType × List String)) (cap : String × List ExtensionChild) :
    (processCap al m cap).map Prod.fst = m.map Prod.fst :=
  keys_foldl_addProvider al cap.1 (requiredNames cap.2) m

theorem keys_foldl_processCap (al : List (String × String)) :
    ∀ (caps : List (String × List ExtensionChild))
      (m : List (String × VkType × List String)),
      (caps.foldl (processCap al) m).map Prod.fst = m.map Prod.fst
  | [], _ => rfl
  | c :: caps, m => by
      rw [List.foldl_cons, keys_foldl_processCap al caps _, keys_processCap]

theorem canonicalTypePairs_snd {r : Registry} {p : String × VkType × List String}
    (hp : p ∈ canonicalTypePairs r) : p.2.2 = [] := by
  rcases List.mem_filterMap.mp hp with ⟨tc, _, htc⟩
  cases tc with
  | type ty =>
      dsimp only at htc
      by_cases ha : ty.«alias».isNone
      · rw [if_pos ha] at htc
        rcases Option.map_eq_some'.mp htc with ⟨n, _, heq⟩
        rw [← heq]
      · rw [if_neg ha] at htc
        cases htc
  | other => cases htc

/-- The provenance map of `get_types` before the empty-provider filter. -/
def typesPrefilter (r : Registry) (aliases : List (String × String))
    (features : List (String × Feature)) (extensions : List (String × Extension)) :
    List (String × VkType × List String) :=
  (capsList features extensions).foldl (processCap aliases)
    (assocCollect (canonicalTypePairs r))

theorem get_types_eq (r : Registry) (al : List (String × String))
    (fs : List (String × Feature)) (es : List (String × Extension)) :
    get_types r al fs es = (typesPrefilter r al fs es).filter fun e => !e.2.2.isEmpty := rfl

theorem typesPrefilter_keys (r : Registry) (al : List (String × String))
    (fs : List (String × Feature)) (es : List (String × Extension)) :
    (typesPrefilter r al fs es).map Prod.fst =
      (assocCollect (canonicalTypePairs r)).map Prod.fst :=
  keys_foldl_processCap al (capsList fs es) _

theorem lookup_typesPrefilter (r : Registry) (al : List (String × String))
    (fs : List (String × Feature)) (es : List (String × Extension)) (t : String) :
    (typesPrefilter r al fs es).lookup t =
      ((assocCollect (canonicalTypePairs r)).lookup t).map fun v =>
        (v.1, accProviders []
          (((capsList fs es).filter (fun c => capRequires al c.2 t)).map Prod.fst)) := by
  rw [typesPrefilter, lookup_foldl_processCap]
  cases h : (assocCollect (canonicalTypePairs r)).lookup t with
  | none => rfl
  | some v =>
      have hv : v.2 = [] :=
        canonicalTypePairs_snd (mem_assocCollect_sub (mem_of_lookup_eq_some h))
      simp [hv]

theorem mem_get_types_iff {r : Registry} {al : List (String × String)}
    {fs : List (String × Feature)} {es : List (String × Extension)} {t : String}
    {v : VkType × List String} :
    (t, v) ∈ get_types r al fs es ↔
      (typesPrefilter r al fs es).lookup t = some v ∧ v.2 ≠ [] := by
  rw [get_types_eq]
  constructor
  · intro h
    have hm := List.mem_filter.mp h
    refine ⟨lookup_eq_some_of_mem_nodup ?_ hm.1, by simpa using hm.2⟩
    rw [typesPrefilter_keys]
    exact assocCollect_keys_nodup _
  · rintro ⟨hl, hv⟩
    exact List.mem_filter.mpr ⟨mem_of_lookup_eq_some hl, by simpa using hv⟩

theorem get_types_value {r : Registry} {al : List (String × String)}
    {fs : List (String × Feature)} {es : List (String × Extension)} {t : String}
    {v : VkType × List String} (h : (t, v) ∈ get_types r al fs es) :
    v.2 = accProviders []
      (((capsList fs es).filter (fun c => capRequires al c.2 t)).map Prod.fst) := by
  rcases mem_get_types_iff.mp h with ⟨hl, _⟩
  rw [lookup_typesPrefilter] at hl
  rcases Option.map_eq_some'.mp hl with ⟨w, _, heq⟩
  exact (congrArg Prod.snd heq).symm

theorem get_types_entry_exists {r : Registry} {al : List (String × String)}
    {fs : List (String × Feature)} {es : List (String × Extension)} {t : String}
    (hdecl : t ∈ (canonicalTypePairs r).map Prod.fst)
    (hex : ∃ c ∈ capsList fs es, capRequires al c.2 t = true) :
    ∃ v, (t, v) ∈ get_types r al fs es ∧
      v.2 = accProviders []
        (((capsList fs es).filter (fun c => capRequires al c.2 t)).map Prod.fst) := by
  have hkey : t ∈ (assocCollect (canonicalTypePairs r)).map Prod.fst :=
    mem_keys_assocCollect.mpr hdecl
  obtain ⟨w, hw⟩ := lookup_isSome_of_mem_keys hkey
  rcases hex with ⟨c, hc, hreq⟩
  have hmemf : c ∈ (capsList fs es).filter (fun c => capRequires al c.2 t) :=
    List.mem_filter.mpr ⟨hc, hreq⟩
  have hnames : ((capsList fs es).filter (fun c => capRequires al c.2 t)).map Prod.fst ≠ [] := by
    intro hnil
    rw [List.map_eq_nil_iff] at hnil
    rw [hnil] at hmemf
    cases hmemf
  refine ⟨(w.1, accProviders []
      (((capsList fs es).filter (fun c => capRequires al c.2 t)).map Prod.fst)), ?_, rfl⟩
  apply mem_get_types_iff.mpr
  constructor
  · rw [lookup_typesPrefilter, hw]
    rfl
  · intro hnil
    have := (accProviders_nil_eq_nil_iff _).mp hnil
    exact hnames this

theorem mem_get_types_keys_iff {r : Registry} {al : List (String × String)}
    {fs : List (String × Feature)} {es : List (String × Extension)} {t : String} :
    t ∈ (get_types r al fs es).map Prod.fst ↔
      t ∈ (canonicalTypePairs r).map Prod.fst ∧
        ∃ c ∈ capsList fs es, capRequires al c.2 t = true := by
  constructor
  · intro h
    rcases List.mem_map.mp h with ⟨p, hp, rfl⟩
    obtain ⟨t, v⟩ := p
    rcases mem_get_types_iff.mp hp with ⟨hl, hv⟩
    have hdecl : t ∈ (canonicalTypePairs r).map Prod.fst := by
      rw [← mem_keys_assocCollect (l := canonicalTypePairs r)]
      have := mem_keys_of_lookup_eq_some hl
      rwa [typesPrefilter_keys] at this
    refine ⟨hdecl, ?_⟩
    rw [lookup_typesPrefilter] at hl
    rcases Option.map_eq_some'.mp hl with ⟨w, _, heq⟩
    have hv2 : v.2 = accProviders []
        (((capsList fs es).filter (fun c => capRequires al c.2 t)).map Prod.fst) :=
      (congrArg Prod.snd heq).symm
    rw [hv2] at hv
    have hnames := fun hnil => hv ((accProviders_nil_eq_nil_iff _).mpr hnil)
    have hfil : (capsList fs es).filter (fun c => capRequires al c.2 t) ≠ [] := by
      intro hnil
      exact hnames (by rw [hnil]; rfl)
    rcases List.exists_mem_of_ne_nil _ hfil with ⟨c, hc⟩
    have hcf := List.mem_filter.mp hc
    exact ⟨c, hcf.1, hcf.2⟩
  · rintro ⟨hdecl, hex⟩
    rcases get_types_entry_exists hdecl hex with ⟨v, hv, _⟩
    exact List.mem_map.mpr ⟨(t, v), hv, rfl⟩

theorem get_types_keys_sub {r : Registry} {al : List (String × String)}
    {fs : List (String × Feature)} {es : List (String × Extension)} {t : String}
    (h : t ∈ (get_types r al fs es).map Prod.fst) :
    t ∈ (canonicalTypePairs r).map Prod.fst :=
  (mem_get_types_keys_iff.mp h).1

theorem capRequires_iff {al : List (String × String)} {ch : List ExtensionChild} {t : String} :
    capRequires al ch t = true ↔ ∃ n ∈ requiredNames ch, resolve al n = t := by
  rw [capRequires, List.any_eq_true]
  constructor
  · rintro ⟨n, hn, hb⟩
    exact ⟨n, hn, eq_of_beq hb⟩
  · rintro ⟨n, hn, hb⟩
    exact ⟨n, hn, beq_iff_eq.mpr hb⟩

theorem get_types_keys_nodup (r : Registry) (al : List (String × String))
    (fs : List (String × Feature)) (es : List (String × Extension)) :
    ((get_types r al fs es).map Prod.fst).Nodup := by
  rw [get_types_eq]
  refine List.Nodup.sublist (List.Sublist.map Prod.fst (List.filter_sublist _)) ?_
  rw [typesPrefilter_keys]
  exact assocCollect_keys_nodup _

theorem lookup_eq_of_perm {β : Type u} {l1 l2 : List (String × β)} (hp : l1.Perm l2)
    (hnd : (l1.map Prod.fst).Nodup) (k : String) : l1.lookup k = l2.lookup k := by
  have hnd2 : (l2.map Prod.fst).Nodup := ((hp.map Prod.fst).nodup_iff).mp hnd
  cases h : l1.lookup k with
  | some v =>
      exact (lookup_eq_some_of_mem_nodup hnd2 (hp.mem_iff.mp (mem_of_lookup_eq_some h))).symm
  | none =>
      cases h2 : l2.lookup k with
      | none => rfl
      | some v =>
          have hm : (k, v) ∈ l1 := hp.mem_iff.mpr (mem_of_lookup_eq_some h2)
          rw [lookup_eq_some_of_mem_nodup hnd hm] at h
          cases h

/-! ### Splitting and parsing the header payload -/

theorem rsplitOnceChar_of_not_mem {sep : Char} :
    ∀ {l : List Char}, sep ∉ l → rsplitOnceChar sep l = none
  | [], _ => rfl
  | c :: cs, h => by
      have ht : rsplitOnceChar sep cs = none :=
        rsplitOnceChar_of_not_mem (fun hm => h (List.mem_cons_of_mem _ hm))
      have hc : (c == sep) = false :=
        beq_eq_false_iff_ne.mpr (fun e => h (e ▸ List.mem_cons_self c cs))
      simp [rsplitOnceChar, ht, hc]

theorem rsplitOnceChar_append_last {sep : Char} (t : List Char) (ht : sep ∉ t) :
    ∀ p : List Char, rsplitOnceChar sep (p ++ sep :: t) = some (p, t)
  | [] => by
      simp [rsplitOnceChar, rsplitOnceChar_of_not_mem ht]
  | c :: p => by
      rw [List.cons_append]
      simp [rsplitOnceChar, rsplitOnceChar_append_last t ht p]

/-! ### Claim C6: header version parsing -/

/-- C6: for the type declaration carrying the `VK_HEADER_VERSION` marker, the
payload is split at its final space separator and the trailing token parsed as
an unsigned 16-bit integer: a payload ending in " 213" yields 213, and a
payload ending in " abc" is a fatal abort (`none`), not 0 or a default. -/
theorem header_version_roundtrip (r : Registry) (c : TypeCode)
    (hfind : (typesChildren r).findSome? markerCode = some c) :
    (∀ p : String, c.code = p ++ " 213" → get_header_version r = some 213) ∧
    (∀ p : String, c.code = p ++ " abc" → get_header_version r = none) := by
  constructor
  · intro p hp
    rw [get_header_version, hfind]
    show headerExtract c.code = some 213
    rw [headerExtract, hp]
    have hd : (p ++ " 213").data = p.data ++ ' ' :: ['2', '1', '3'] := by
      rw [String.data_append]
    rw [hd, rsplitOnceChar_append_last ['2', '1', '3'] (by decide) p.data]
    rfl
  · intro p hp
    rw [get_header_version, hfind]
    show headerExtract c.code = none
    rw [headerExtract, hp]
    have hd : (p ++ " abc").data = p.data ++ ' ' :: ['a', 'b', 'c'] := by
      rw [String.data_append]
    rw [hd, rsplitOnceChar_append_last ['a', 'b', 'c'] (by decide) p.data]
    rfl

def headerMarkerW : TypeCode :=
  ⟨"#define VK_HEADER_VERSION 213", [.name "VK_HEADER_VERSION"]⟩

def rHeaderW : Registry := [.types [.type ⟨some "VK_HEADER_VERSION", none, .code headerMarkerW⟩]]

/-- Witness for C6 at a concrete registry. -/
theorem header_version_roundtrip_witness : get_header_version rHeaderW = some 213 :=
  (header_version_roundtrip rHeaderW headerMarkerW (by decide)).1
    "#define VK_HEADER_VERSION" (by decide)

/-! ### Claim C7: marker multiplicity -/

def rTwoMarkers : Registry := [.types [
  .type ⟨some "VK_HEADER_VERSION", none, .code ⟨"A 1", [.name "VK_HEADER_VERSION"]⟩⟩,
  .type ⟨some "VK_HEADER_VERSION", none, .code ⟨"B 2", [.name "VK_HEADER_VERSION"]⟩⟩]]

/-- C7 counterexample: a registry with two `VK_HEADER_VERSION` markers is not
fatal; extraction succeeds with the first marker's value, contradicting the
claim that more than one marker aborts. -/
theorem header_version_two_markers_not_fatal :
    ((typesChildren rTwoMarkers).countP (fun tc => (markerCode tc).isSome)) = 2 ∧
    get_header_version rTwoMarkers = some 1 := by
  constructor <;> decide

/-- C7 (amended): extraction is fatal when no type declaration carries the
marker; when one or more do, the first in document order wins (no uniqueness
check). -/
theorem header_version_first_marker (r : Registry) :
    ((typesChildren r).findSome? markerCode = none → get_header_version r = none) ∧
    (∀ (l1 l2 : List TypesChild) (tc : TypesChild) (c : TypeCode),
      typesChildren r = l1 ++ tc :: l2 → (∀ tc' ∈ l1, markerCode tc' = none) →
      markerCode tc = some c → get_header_version r = headerExtract c.code) := by
  constructor
  · intro h
    rw [get_header_version, h]
    rfl
  · intro l1 l2 tc c hsplit hnone hmk
    rw [get_header_version, hsplit, List.findSome?_append,
      show List.findSome? markerCode l1 = none from List.findSome?_eq_none_iff.mpr hnone,
      Option.none_or, List.findSome?_cons, hmk]
    rfl

/-- Witness for C7 (amended) at the two-marker registry: the first marker's
payload decides the result. -/
theorem header_version_first_marker_witness :
    get_header_version rTwoMarkers = headerExtract "A 1" :=
  (header_version_first_marker rTwoMarkers).2 []
    [.type ⟨some "VK_HEADER_VERSION", none, .code ⟨"B 2", [.name "VK_HEADER_VERSION"]⟩⟩]
    (.type ⟨some "VK_HEADER_VERSION", none, .code ⟨"A 1", [.name "VK_HEADER_VERSION"]⟩⟩)
    ⟨"A 1", [.name "VK_HEADER_VERSION"]⟩ (by decide) (by intro tc' h; cases h) (by decide)

/-! ### Claim C9: atomic output -/

/-- C9: when a stage before emission fails fatally (registry missing or fully
unparsable, header-version marker missing, or header-version token malformed),
the output sink receives no bytes: `write` yields `none` and its single final
output happens only after every fallible stage. -/
theorem write_atomic
    (emitExtensions : List (String × Extension) → String)
    (emitFeatures : List (String × VkType × List String) → List (String × Extension) → String)
    (emitFns : List (String × Extension) → String)
    (emitProperties : List (String × VkType × List String) → List (String × Extension) → String) :
    (write none emitExtensions emitFeatures emitFns emitProperties = none) ∧
    (∀ reg : Registry, get_header_version reg = none →
      write (some reg) emitExtensions emitFeatures emitFns emitProperties = none) := by
  constructor
  · rfl
  · intro reg h
    cases ha : get_aliases reg with
    | none => simp [write, ha]
    | some al => simp [write, ha, h]

/-- Witness for C9: both fatal conditions at concrete inputs produce no
output. -/
theorem write_atomic_witness :
    write none (fun _ => "") (fun _ _ => "") (fun _ => "") (fun _ _ => "") = none ∧
    write (some []) (fun _ => "") (fun _ _ => "") (fun _ => "") (fun _ _ => "") = none :=
  ⟨(write_atomic (fun _ => "") (fun _ _ => "") (fun _ => "") (fun _ _ => "")).1,
    (write_atomic (fun _ => "") (fun _ _ => "") (fun _ => "") (fun _ _ => "")).2 [] (by decide)⟩

/-! ### Claim C1: extension retention -/

def eDupKeep : Extension := ⟨"VK_A", some "vulkan", none, []⟩

def rDupExt : Registry :=
  [.extensions [eDupKeep, ⟨"VK_A", some "vulkan", none, [.other]⟩]]

/-- C1 counterexample: with two retained declarations sharing a name, the
earlier one passes the retention filter yet is not present in the ordered
extension collection (the later declaration wins), so presence is not
equivalent to retention for every declaration. -/
theorem extension_retention_duplicate_counterexample :
    eDupKeep ∈ extensionDecls rDupExt ∧ extRetained eDupKeep = true ∧
    ∀ p ∈ get_extensions rDupExt, p.2 ≠ eDupKeep := by
  refine ⟨by decide, by decide, by decide⟩

/-- C1 (amended): an extension declaration is present in the ordered extension
collection if and only if its support tag is `"vulkan"` and it has no
obsoleted-by marker, provided the declared extension names are unique (which
the registry guarantees); with duplicate names only the last retained
declaration for a name is present. -/
theorem extension_retention_iff (r : Registry) (e : Extension)
    (hnd : ((extensionDecls r).map (fun e => e.name)).Nodup)
    (he : e ∈ extensionDecls r) :
    (e.name, e) ∈ get_extensions r ↔ extRetained e = true := by
  constructor
  · intro h
    rcases mem_get_extensions_iff.mp h with ⟨_, hlast⟩
    exact (List.mem_filter.mp (hashGetLast_mem hlast).1).2
  · intro h
    have hiter : e ∈ retainedExtensions r := List.mem_filter.mpr ⟨he, h⟩
    have hnd' : ((retainedExtensions r).map (fun e => e.name)).Nodup :=
      List.Nodup.sublist (List.Sublist.map _ (List.filter_sublist _)) hnd
    exact mem_get_extensions_iff.mpr
      ⟨extSortedNames_mem.mpr ⟨e, hiter, rfl⟩, hashGetLast_of_nodup hnd' hiter⟩

def eRetW : Extension := ⟨"VK_KHR_b", some "vulkan", none, []⟩

def rRetW : Registry := [.extensions [eRetW, ⟨"VK_KHR_c", none, none, []⟩]]

/-- Witness for C1 (amended) at a concrete registry with unique names. -/
theorem extension_retention_iff_witness :
    (eRetW.name, eRetW) ∈ get_extensions rRetW ↔ extRetained eRetW = true :=
  extension_retention_iff rRetW eRetW (by decide) (by decide)

/-! ### Claim C10: duplicate names deduplicate, last seen wins -/

/-- C10: when at least one retained declaration carries the name `n`, the
ordered extension collection has exactly one entry keyed `n`, and its value is
the last retained declaration with that name in document order; with unique
names this is the only declaration. -/
theorem extension_dedup_last_wins (r : Registry) (n : String)
    (h : (retainedExtensions r).filter (fun e => e.name == n) ≠ []) :
    (get_extensions r).countP (fun p => p.1 == n) = 1 ∧
    ∀ e, (n, e) ∈ get_extensions r →
      ((retainedExtensions r).filter (fun e => e.name == n)).getLast? = some e := by
  constructor
  · have hkey : n ∈ (get_extensions r).map Prod.fst := by
      rcases List.exists_mem_of_ne_nil _ h with ⟨e, he⟩
      have hef := List.mem_filter.mp he
      exact mem_get_extensions_keys.mpr ⟨e, hef.1, eq_of_beq hef.2⟩
    have h1 : (get_extensions r).countP (fun p => p.1 == n)
        = ((get_extensions r).map Prod.fst).countP (fun k => k == n) := by
      rw [List.countP_map]
      rfl
    rw [h1,
      show ((get_extensions r).map Prod.fst).countP (fun k => k == n)
        = ((get_extensions r).map Prod.fst).count n from rfl]
    exact List.count_eq_one_of_mem (get_extensions_keys_nodup r) hkey
  · intro e hmem
    rcases mem_get_extensions_iff.mp hmem with ⟨_, hlast⟩
    rw [← hashGetLast_eq_filter_getLast?]
    exact hlast

def rDedupW : Registry :=
  [.extensions [⟨"VK_D", some "vulkan", none, []⟩, ⟨"VK_D", some "vulkan", none, [.other]⟩]]

/-- Witness for C10 at a registry with two retained declarations named
`VK_D`. -/
theorem extension_dedup_last_wins_witness :
    (get_extensions rDedupW).countP (fun p => p.1 == "VK_D") = 1 ∧
    ∀ e, ("VK_D", e) ∈ get_extensions rDedupW →
      ((retainedExtensions rDedupW).filter (fun e => e.name == "VK_D")).getLast? = some e :=
  extension_dedup_last_wins rDedupW "VK_D" (by decide)

/-! ### Claim C2: the three-tier strict total order -/

/-- C2: for keys of the ordered extension collection, `a` precedes `b` exactly
when `(tier a, a) < (tier b, b)` lexicographically (`extLT`), and `extLT` is a
strict total order on the retained key set: irreflexive, transitive,
asymmetric (hence antisymmetric), and total on distinct keys. -/
theorem extension_order_strict_total (r : Registry) :
    (∀ a b, a ∈ (get_extensions r).map Prod.fst → b ∈ (get_extensions r).map Prod.fst →
      (precedes ((get_extensions r).map Prod.fst) a b ↔ extLT a b)) ∧
    (∀ a, ¬ extLT a a) ∧
    (∀ a b c, extLT a b → extLT b c → extLT a c) ∧
    (∀ a b, extLT a b → ¬ extLT b a) ∧
    (∀ a b, a ∈ (get_extensions r).map Prod.fst → b ∈ (get_extensions r).map Prod.fst →
      a ≠ b → extLT a b ∨ extLT b a) := by
  have hpw := get_extensions_keys_pairwise r
  refine ⟨?_, extLT_irrefl, fun a b c h1 h2 => extLT_trans h1 h2,
    fun a b h => extLT_asymm h, fun a b _ _ hne => extLT_total_of_ne hne⟩
  intro a b ha hb
  constructor
  · rintro ⟨i, j, hij, hia, hjb⟩
    rcases List.getElem?_eq_some_iff.mp hia with ⟨hi, hia'⟩
    rcases List.getElem?_eq_some_iff.mp hjb with ⟨hj, hjb'⟩
    have hr := List.pairwise_iff_getElem.mp hpw i j hi hj hij
    rwa [hia', hjb'] at hr
  · intro hlt
    rcases List.mem_iff_getElem.mp ha with ⟨i, hi, hia⟩
    rcases List.mem_iff_getElem.mp hb with ⟨j, hj, hjb⟩
    rcases Nat.lt_trichotomy i j with hij | rfl | hij
    · exact ⟨i, j, hij, by rw [List.getElem?_eq_getElem hi, hia],
        by rw [List.getElem?_eq_getElem hj, hjb]⟩
    · exact absurd (hia.symm.trans hjb) (extLT_ne hlt)
    · exfalso
      have hr := List.pairwise_iff_getElem.mp hpw j i hj hi hij
      rw [hia, hjb] at hr
      exact extLT_asymm hlt hr

def rOrdW : Registry := [.extensions [
  ⟨"VK_other_a", some "vulkan", none, []⟩,
  ⟨"VK_KHR_z", some "vulkan", none, []⟩,
  ⟨"VK_EXT_m", some "vulkan", none, []⟩]]

/-- Witness for C2: the khronos-prefixed key precedes the extension-vendor
key at a concrete registry. -/
theorem extension_order_strict_total_witness :
    precedes ((get_extensions rOrdW).map Prod.fst) "VK_KHR_z" "VK_EXT_m" ↔
      extLT "VK_KHR_z" "VK_EXT_m" :=
  (extension_order_strict_total rOrdW).1 "VK_KHR_z" "VK_EXT_m" (by decide) (by decide)

/-! ### Claim C3: provenance reachability -/

/-- C3: a declared canonical (non-alias, named) type `t` is a key of the final
provenance map exactly when some retained capability (a feature, or an
extension of the computed collection) has a require block whose referenced
name resolves through the alias map to `t`; and every surviving entry has a
nonempty provider list (empty-provider types are dropped). -/
theorem type_provenance_reachability (r : Registry) (al : List (String × String)) (t : String)
    (_hal : get_aliases r = some al)
    (hdecl : t ∈ (canonicalTypePairs r).map Prod.fst) :
    (t ∈ (get_types r al (get_features r) (get_extensions r)).map Prod.fst ↔
      ∃ c ∈ capsList (get_features r) (get_extensions r),
        ∃ n ∈ requiredNames c.2, resolve al n = t) ∧
    (∀ v, (t, v) ∈ get_types r al (get_features r) (get_extensions r) → v.2 ≠ []) := by
  constructor
  · rw [mem_get_types_keys_iff]
    constructor
    · rintro ⟨_, c, hc, hreq⟩
      exact ⟨c, hc, capRequires_iff.mp hreq⟩
    · rintro ⟨c, hc, hreq⟩
      exact ⟨hdecl, c, hc, capRequires_iff.mpr hreq⟩
  · intro v hv
    exact (mem_get_types_iff.mp hv).2

def rReachW : Registry := [
  .types [.type ⟨some "Foo", none, .other⟩, .type ⟨some "OldFoo", some "Foo", .other⟩],
  .feature ⟨"VK_VERSION_1_0", [.require [.type "OldFoo"]]⟩]

/-- Witness for C3 at a concrete registry where a feature reaches `Foo`
through the alias `OldFoo`. -/
theorem type_provenance_reachability_witness :
    "Foo" ∈ (get_types rReachW [("OldFoo", "Foo")]
        (get_features rReachW) (get_extensions rReachW)).map Prod.fst ↔
      ∃ c ∈ capsList (get_features rReachW) (get_extensions rReachW),
        ∃ n ∈ requiredNames c.2, resolve [("OldFoo", "Foo")] n = "Foo" :=
  (type_provenance_reachability rReachW [("OldFoo", "Foo")] "Foo" (by decide) (by decide)).1

/-! ### Claim C4: alias transparency -/

def rAliasClash : Registry := [
  .types [.type ⟨some "Foo", none, .other⟩, .type ⟨some "Foo", some "Bar", .other⟩,
          .type ⟨some "Baz", some "Foo", .other⟩],
  .feature ⟨"F", [.require [.type "Baz"]]⟩]

/-- C4 counterexample: in a registry where the name `Foo` is declared both as
a definition and as an alias, `Foo` is a key of the alias map and still a key
of the final provenance map, contradicting the claim that no alias-map key
ever appears there. -/
theorem alias_key_in_final_map_counterexample :
    (get_aliases rAliasClash).map (List.map Prod.fst) = some ["Foo", "Baz"] ∧
    (extractTypes rAliasClash).map (List.map Prod.fst) = some ["Foo"] := by
  refine ⟨by decide, by decide⟩

/-- C4 (amended): if a retained capability requires a name that the alias map
sends to `M`, and `M` is a declared canonical type, then `M`'s provenance
entry lists that capability; and an alias-map key that is not also declared as
a canonical type never appears as a key of the final map (with unique type
names, no alias name ever appears). -/
theorem alias_transparency (r : Registry) (al : List (String × String))
    (_hal : get_aliases r = some al) :
    (∀ cap ∈ capsList (get_features r) (get_extensions r), ∀ nm M : String,
      nm ∈ requiredNames cap.2 → al.lookup nm = some M →
      M ∈ (canonicalTypePairs r).map Prod.fst →
      ∃ v, (M, v) ∈ get_types r al (get_features r) (get_extensions r) ∧ cap.1 ∈ v.2) ∧
    (∀ T, T ∈ al.map Prod.fst → T ∉ (canonicalTypePairs r).map Prod.fst →
      T ∉ (get_types r al (get_features r) (get_extensions r)).map Prod.fst) := by
  constructor
  · intro cap hcap nm M hnm hlook hdecl
    have hres : resolve al nm = M := by
      rw [resolve, hlook]
      rfl
    have hreq : capRequires al cap.2 M = true := capRequires_iff.mpr ⟨nm, hnm, hres⟩
    rcases get_types_entry_exists hdecl ⟨cap, hcap, hreq⟩ with ⟨v, hv, hval⟩
    refine ⟨v, hv, ?_⟩
    rw [hval]
    refine (mem_accProviders _ _).mpr (Or.inr ?_)
    exact List.mem_map.mpr ⟨cap, List.mem_filter.mpr ⟨hcap, hreq⟩, rfl⟩
  · intro T _ hnotdecl hmem
    exact hnotdecl (get_types_keys_sub hmem)

def rAliasW : Registry := [
  .types [.type ⟨some "SwapchainKHR", none, .other⟩,
          .type ⟨some "SwapchainKHR_old", some "SwapchainKHR", .other⟩],
  .extensions [⟨"VK_KHR_swapchain", some "vulkan", none,
    [.require [.type "SwapchainKHR_old"]]⟩]]

/-- Witness for C4 (amended): the extension reaching `SwapchainKHR` through
its alias appears in that entry's provider list. -/
theorem alias_transparency_witness :
    ∃ v, ("SwapchainKHR", v) ∈ get_types rAliasW [("SwapchainKHR_old", "SwapchainKHR")]
        (get_features rAliasW) (get_extensions rAliasW) ∧ "VK_KHR_swapchain" ∈ v.2 :=
  (alias_transparency rAliasW [("SwapchainKHR_old", "SwapchainKHR")] (by decide)).1
    ("VK_KHR_swapchain", [.require [.type "SwapchainKHR_old"]]) (by decide)
    "SwapchainKHR_old" "SwapchainKHR" (by decide) (by decide) (by decide)

/-! ### Claim C5: provider lists -/

/-- C5: every entry of the final provenance map has as provider list exactly
the first-seen deduplication (`accProviders []`) of the capability names, in
the fixed pass order features-then-extensions, restricted to the capabilities
whose require blocks resolve to the entry's key; in particular the list has no
duplicates.  Resolution uses a required name as-is when absent from the alias
map (`resolve`), and a resolved name with no map entry contributes nothing. -/
theorem provider_list_spec (r : Registry) (al : List (String × String))
    (_hal : get_aliases r = some al) (t : String) (v : VkType × List String)
    (hv : (t, v) ∈ get_types r al (get_features r) (get_extensions r)) :
    v.2 = accProviders []
      (((capsList (get_features r) (get_extensions r)).filter
        (fun c => capRequires al c.2 t)).map Prod.fst) ∧
    v.2.Nodup := by
  refine ⟨get_types_value hv, ?_⟩
  rw [get_types_value hv]
  exact accProviders_nodup _ [] List.nodup_nil

def rProvW : Registry := [
  .types [.type ⟨some "Inst", none, .other⟩],
  .feature ⟨"VK_VERSION_1_0", [.require [.type "Inst"]]⟩,
  .extensions [⟨"VK_KHR_x", some "vulkan", none, [.require [.type "Inst"]]⟩]]

/-- Witness for C5: a type provided by one feature and one extension gets the
feature first. -/
theorem provider_list_spec_witness :
    ((⟨some "Inst", none, TypeSpec.other⟩, ["VK_VERSION_1_0", "VK_KHR_x"]) :
        VkType × List String).2 =
      accProviders []
        (((capsList (get_features rProvW) (get_extensions rProvW)).filter
          (fun c => capRequires [] c.2 "Inst")).map Prod.fst) ∧
    ((⟨some "Inst", none, TypeSpec.other⟩, ["VK_VERSION_1_0", "VK_KHR_x"]) :
        VkType × List String).2.Nodup :=
  provider_list_spec rProvW [] (by decide) "Inst"
    (⟨some "Inst", none, TypeSpec.other⟩, ["VK_VERSION_1_0", "VK_KHR_x"]) (by decide)

/-! ### Claim C8: determinism of the models -/

def rIterC : Registry := [
  .types [.type ⟨some "T1", none, .other⟩, .type ⟨some "T2", none, .other⟩],
  .feature ⟨"F", [.require [.type "T1", .type "T2"]]⟩]

/-- The provenance entries `extractTypes` computes for `rIterC`. -/
def iterEntries : List (String × VkType × List String) :=
  [("T1", ⟨some "T1", none, .other⟩, ["F"]), ("T2", ⟨some "T2", none, .other⟩, ["F"])]

/-- C8 counterexample: the final provenance map is a `std` `HashMap` whose
iteration order is not a function of its contents; at a concrete registry two
distinct entry orders are both observable iteration orders, so the iteration
order handed to the emitters is not determined by the input. -/
theorem types_iteration_order_not_determined :
    IsTypesIterationOrder rIterC
      [("T1", ⟨some "T1", none, .other⟩, ["F"]), ("T2", ⟨some "T2", none, .other⟩, ["F"])] ∧
    IsTypesIterationOrder rIterC
      [("T2", ⟨some "T2", none, .other⟩, ["F"]), ("T1", ⟨some "T1", none, .other⟩, ["F"])] ∧
    ([("T1", (⟨some "T1", none, .other⟩ : VkType), ["F"]),
      ("T2", ⟨some "T2", none, .other⟩, ["F"])] ≠
     [("T2", ⟨some "T2", none, .other⟩, ["F"]),
      ("T1", ⟨some "T1", none, .other⟩, ["F"])]) := by
  refine ⟨⟨iterEntries, by decide, by decide⟩, ⟨iterEntries, by decide, by decide⟩, by decide⟩

/-- C8 (amended): the ordered feature and extension collections and the header
version are pure functions of the registry, and the provenance map is
determined up to permutation: any two observable iteration orders of the final
`HashMap` are permutations of each other and agree as key-value maps; only the
entry order itself is unspecified. -/
theorem types_iteration_orders_agree (r : Registry)
    (l1 l2 : List (String × VkType × List String))
    (h1 : IsTypesIterationOrder r l1) (h2 : IsTypesIterationOrder r l2) :
    l1.Perm l2 ∧ ∀ k, l1.lookup k = l2.lookup k := by
  rcases h1 with ⟨m1, hm1, hp1⟩
  rcases h2 with ⟨m2, hm2, hp2⟩
  rw [hm1] at hm2
  cases hm2
  have hperm : l1.Perm l2 := hp1.trans hp2.symm
  refine ⟨hperm, fun k => ?_⟩
  rcases Option.map_eq_some'.mp hm1 with ⟨al, _, hm⟩
  have hnd : (l1.map Prod.fst).Nodup := by
    refine ((hp1.map Prod.fst).nodup_iff).mpr ?_
    rw [← hm]
    exact get_types_keys_nodup r al (get_features r) (get_extensions r)
  exact lookup_eq_of_perm hperm hnd k

/-- Witness for C8 (amended) at the concrete registry of the counterexample. -/
theorem types_iteration_orders_agree_witness :
    ([("T1", (⟨some "T1", none, .other⟩ : VkType), ["F"]),
      ("T2", ⟨some "T2", none, .other⟩, ["F"])].Perm
     [("T2", ⟨some "T2", none, .other⟩, ["F"]),
      ("T1", ⟨some "T1", none, .other⟩, ["F"])]) ∧
    ∀ k, ([("T1", (⟨some "T1", none, .other⟩ : VkType), ["F"]),
      ("T2", ⟨some "T2", none, .other⟩, ["F"])].lookup k =
        [("T2", ⟨some "T2", none, .other⟩, ["F"]),
          ("T1", ⟨some "T1", none, .other⟩, ["F"])].lookup k) :=
  types_iteration_orders_agree rIterC _ _ ⟨iterEntries, by decide, by decide⟩
    ⟨iterEntries, by decide, by decide⟩

end Autogen
